import Mathlib

set_option autoImplicit false

/-!
Shallow embedding of the route-monitor core from src/rmon.c: the chained
hash table (`hash_function`, `hash_table_insert`, `hash_table_remove`,
`hash_table_find_by_ifindex`), the invalidation report produced by
`print_invalidated_route`, and the event callbacks (`route_callback`,
`link_callback`, `addr_callback`) restricted to their effect on the table
and on the emitted report lines.

C strings are modelled as lists of byte values (the bytes preceding the
terminating NUL, hence never 0); `unsigned int` arithmetic is modelled as
integer arithmetic reduced modulo 2^32.
-/

/-- One observed route, mirroring struct `RouteInfo` in src/rmon.c:
destination string, owning interface index, gateway string, metric. -/
structure RouteInfo where
  destination : List Nat
  ifindex : Int
  gateway : List Nat
  metric : Int
deriving DecidableEq, Repr

/-- The hash table of src/rmon.c: a bucket array (outer list, length =
`ht->size`) of singly linked `HashNode` chains (inner lists). -/
abbrev HashTable := List (List RouteInfo)

/-- `hash_table_init(size)`: a bucket array of `size` empty chains
(`calloc` zero-fills the bucket pointers). -/
def hash_table_init (size : Nat) : HashTable :=
  List.replicate size []

/-- The `int` value of a `char` read from a C string on the target platform
(signed `char`): byte values at or above 128 read back negative. -/
def charVal (b : Nat) : Int :=
  if b < 128 then (b : Int) else (b : Int) - 256

/-- The modulus of `unsigned int` arithmetic, 2^32. -/
def UINT_MOD : Nat := 4294967296

/-- The accumulation loop of `hash_function`:
`hash = hash * 31 + destination[i]` over the destination bytes, in
wrap-around `unsigned int` arithmetic. -/
def hashLoop : List Nat → Nat → Nat
  | [], h => h
  | b :: rest, h => hashLoop rest (((31 * (h : Int) + charVal b).emod (UINT_MOD : Int)).toNat)

/-- `hash_function` from src/rmon.c: multiplicative string hash of the
destination, then `hash += ifindex` (wrap-around unsigned addition), then
`hash % size` (in `size_t`), truncated to `unsigned int` on return. -/
def hash_function (destination : List Nat) (ifindex : Int) (size : Nat) : Nat :=
  ((((hashLoop destination 0 : Int) + ifindex).emod (UINT_MOD : Int)).toNat % size) % UINT_MOD

/-- `hash_table_insert`: prepend a new node holding the route to the chain
of the bucket selected by `hash_function`. No duplicate check. -/
def hash_table_insert (ht : HashTable) (route : RouteInfo) : HashTable :=
  let index := hash_function route.destination route.ifindex ht.length
  ht.set index (route :: ht.getD index [])

/-- The chain walk of `hash_table_remove`: unlink and free the first node
whose destination compares equal (`strcmp == 0`) and whose ifindex compares
equal; leave the chain unchanged when no node matches. -/
def remove_from_chain (chain : List RouteInfo) (destination : List Nat) (ifindex : Int) :
    List RouteInfo :=
  match chain with
  | [] => []
  | r :: rest =>
    if r.destination = destination ∧ r.ifindex = ifindex then rest
    else r :: remove_from_chain rest destination ifindex

/-- `hash_table_remove`: recompute the bucket index and apply the chain
walk to that single bucket. -/
def hash_table_remove (ht : HashTable) (destination : List Nat) (ifindex : Int) : HashTable :=
  let index := hash_function destination ifindex ht.length
  ht.set index (remove_from_chain (ht.getD index []) destination ifindex)

/-- The inner loop of `hash_table_find_by_ifindex` over one bucket chain:
visit (in chain order) every node whose `ifindex` equals the argument. -/
def scan_chain (chain : List RouteInfo) (ifindex : Int) : List RouteInfo :=
  match chain with
  | [] => []
  | r :: rest =>
    if r.ifindex = ifindex then r :: scan_chain rest ifindex else scan_chain rest ifindex

/-- `hash_table_find_by_ifindex`: scan every bucket in index order, every
chain node in chain order; the returned list is the sequence of entries the
callback is invoked on. -/
def hash_table_find_by_ifindex : HashTable → Int → List RouteInfo
  | [], _ => []
  | bucket :: rest, ifindex =>
    scan_chain bucket ifindex ++ hash_table_find_by_ifindex rest ifindex

/-- All entries physically present in the cache, in bucket-then-chain
order. -/
def cacheEntries (ht : HashTable) : List RouteInfo :=
  ht.flatten

/-- One line printed by src/rmon.c, with exactly the fields the
corresponding `printf` renders. -/
inductive Line where
  | routeAdded (destination : List Nat) (oif : Int) (gateway : List Nat) (metric : Int)
  | routeDeleted (destination : List Nat) (oif : Int) (gateway : List Nat) (metric : Int)
  | linkAdded (ifindex : Int)
  | linkDeleted (ifindex : Int)
  | addrDeleted (addr : List Nat) (ifindex : Int)
  | routeInvalidated (destination : List Nat) (oif : Int) (gateway : List Nat) (metric : Int)
deriving DecidableEq, Repr

/-- `print_invalidated_route`: the invalidation record emitted per matching
route — destination, oif, gateway, metric; nothing else. -/
def print_invalidated_route (route : RouteInfo) : Line :=
  Line.routeInvalidated route.destination route.ifindex route.gateway route.metric

/-- `link_callback` on a RTM_NEWLINK / RTM_DELLINK message carrying
`ifindex`: on delete, print the link-deleted line and run the ifindex scan
with `print_invalidated_route` as callback; the table is never written. -/
def link_callback (ht : HashTable) (isDelete : Bool) (ifindex : Int) : HashTable × List Line :=
  if isDelete then
    (ht, Line.linkDeleted ifindex ::
      (hash_table_find_by_ifindex ht ifindex).map print_invalidated_route)
  else
    (ht, [Line.linkAdded ifindex])

/-- `addr_callback` on a RTM_DELADDR message whose address attribute parsed
to `addr` on interface `ifindex`: print the address-deleted line, then run
the same ifindex scan with `print_invalidated_route`; the table is never
written. -/
def addr_callback (ht : HashTable) (addr : List Nat) (ifindex : Int) : HashTable × List Line :=
  (ht, Line.addrDeleted addr ifindex ::
    (hash_table_find_by_ifindex ht ifindex).map print_invalidated_route)

/-- `route_callback` on a parsed RTM_NEWROUTE / RTM_DELROUTE message: new
routes are inserted and reported; deleted routes are reported and removed
by key. -/
def route_callback (ht : HashTable) (isNew : Bool) (route : RouteInfo) : HashTable × List Line :=
  if isNew then
    (hash_table_insert ht route,
      [Line.routeAdded route.destination route.ifindex route.gateway route.metric])
  else
    (hash_table_remove ht route.destination route.ifindex,
      [Line.routeDeleted route.destination route.ifindex route.gateway route.metric])

/-- A cache mutation: one `hash_table_insert` or one `hash_table_remove`. -/
inductive CacheOp where
  | ins (route : RouteInfo)
  | rem (destination : List Nat) (ifindex : Int)
deriving DecidableEq, Repr

/-- Run a sequence of cache mutations left to right. -/
def runOps : HashTable → List CacheOp → HashTable
  | ht, [] => ht
  | ht, CacheOp.ins r :: rest => runOps (hash_table_insert ht r) rest
  | ht, CacheOp.rem d i :: rest => runOps (hash_table_remove ht d i) rest

/-- Does the entry carry exactly this key (string-equal destination and
equal interface index)? -/
def keyMatches (destination : List Nat) (ifindex : Int) (r : RouteInfo) : Bool :=
  decide (r.destination = destination ∧ r.ifindex = ifindex)

/-- Number of entries with the given key physically present in the cache. -/
def keyCount (destination : List Nat) (ifindex : Int) (ht : HashTable) : Nat :=
  (cacheEntries ht).countP (keyMatches destination ifindex)

/-- How many operations of the sequence insert an entry with this key. -/
def insCount (destination : List Nat) (ifindex : Int) (ops : List CacheOp) : Nat :=
  ops.countP (fun op => match op with
    | CacheOp.ins r => keyMatches destination ifindex r
    | CacheOp.rem _ _ => false)

/-- How many operations of the sequence remove this key. -/
def remCount (destination : List Nat) (ifindex : Int) (ops : List CacheOp) : Nat :=
  ops.countP (fun op => match op with
    | CacheOp.ins _ => false
    | CacheOp.rem d i => decide (d = destination ∧ i = ifindex))

/-- Starting from `c` live entries with the given key, every remove of that
key in the sequence happens while at least one such entry is live (so every
remove of the key actually finds and deletes a node). -/
def removesCovered (destination : List Nat) (ifindex : Int) : Nat → List CacheOp → Bool
  | _, [] => true
  | c, CacheOp.ins r :: rest =>
    removesCovered destination ifindex
      (if keyMatches destination ifindex r then c + 1 else c) rest
  | c, CacheOp.rem d i :: rest =>
    if d = destination ∧ i = ifindex then
      decide (c ≠ 0) && removesCovered destination ifindex (c - 1) rest
    else removesCovered destination ifindex c rest

/-- Every entry sits in the bucket its key hashes to. Every table the
program builds (inserts and removes from an empty table) satisfies this. -/
def BucketsConsistent (ht : HashTable) : Prop :=
  ∀ i, i < ht.length → ∀ r ∈ ht.getD i [], hash_function r.destination r.ifindex ht.length = i

/-- Is this output line a per-route invalidation record
(`print_invalidated_route` output)? -/
def isInvalidationRecord : Line → Bool
  | Line.routeInvalidated _ _ _ _ => true
  | _ => false

/-- The per-route invalidation records contained in an output fragment. -/
def invalRecords (out : List Line) : List Line :=
  out.filter isInvalidationRecord

/-- Multiplicity of a value in a list. -/
def occCount {α : Type} [DecidableEq α] (v : α) (l : List α) : Nat :=
  l.countP (fun x => decide (x = v))

example : hash_function [97] 0 4 = 1 := by decide
example :
    hash_table_find_by_ifindex
      (hash_table_insert (hash_table_init 4) ⟨[97], 3, [], 0⟩) 3 = [⟨[97], 3, [], 0⟩] := by
  decide

/-! ### Generic list helpers -/

theorem getD_set_self {α : Type} (l : List α) (i : Nat) (b d : α) (h : i < l.length) :
    (l.set i b).getD i d = b := by
  induction l generalizing i with
  | nil => simp at h
  | cons a t ih =>
    cases i with
    | zero => rfl
    | succ j => exact ih j (by simpa using h)

theorem getD_set_ne {α : Type} (l : List α) (i j : Nat) (b d : α) (h : i ≠ j) :
    (l.set i b).getD j d = l.getD j d := by
  induction l generalizing i j with
  | nil => simp
  | cons a t ih =>
    cases i with
    | zero =>
      cases j with
      | zero => exact absurd rfl h
      | succ k => simp [List.getD_cons_succ]
    | succ m =>
      cases j with
      | zero => simp
      | succ k =>
        simp only [List.set_cons_succ, List.getD_cons_succ]
        exact ih m k (fun e => h (by omega))

theorem set_getD_self {α : Type} (l : List α) (i : Nat) (d : α) :
    l.set i (l.getD i d) = l := by
  induction l generalizing i with
  | nil => rfl
  | cons a t ih =>
    cases i with
    | zero => rfl
    | succ j =>
      simp only [List.set_cons_succ, List.getD_cons_succ]
      rw [ih j]

theorem countP_flatten_set {α : Type} (p : α → Bool) (l : List (List α)) (i : Nat)
    (b : List α) (h : i < l.length) :
    ((l.set i b).flatten).countP p + (l.getD i []).countP p
      = (l.flatten).countP p + b.countP p := by
  induction l generalizing i with
  | nil => simp at h
  | cons a t ih =>
    cases i with
    | zero =>
      simp only [List.set_cons_zero, List.flatten_cons, List.countP_append, List.getD_cons_zero]
      omega
    | succ j =>
      have := ih j (by simpa using h)
      simp only [List.set_cons_succ, List.flatten_cons, List.countP_append, List.getD_cons_succ]
      omega

theorem countP_pointwise {α : Type} (p q : α → Bool) (l : List α)
    (h : ∀ x ∈ l, p x = q x) : l.countP p = l.countP q := by
  induction l with
  | nil => rfl
  | cons a t ih =>
    simp only [List.countP_cons, h a (List.mem_cons_self a t),
      ih (fun x hx => h x (List.mem_cons_of_mem a hx))]

theorem occCount_filter {α : Type} [DecidableEq α] (v : α) (p : α → Bool) (l : List α) :
    occCount v (l.filter p) = if p v then occCount v l else 0 := by
  unfold occCount
  rw [List.countP_filter]
  by_cases h : p v = true
  · rw [if_pos h]
    apply countP_pointwise
    intro x hx
    by_cases hxv : x = v
    · subst hxv; simp [h]
    · simp [hxv]
  · rw [if_neg h, List.countP_eq_zero]
    intro x hx
    by_cases hxv : x = v
    · subst hxv; simp [h]
    · simp [hxv]

theorem occCount_pos_iff_mem {α : Type} [DecidableEq α] (v : α) (l : List α) :
    0 < occCount v l ↔ v ∈ l := by
  unfold occCount
  rw [List.countP_pos_iff]
  constructor
  · rintro ⟨a, ha, hav⟩
    rw [of_decide_eq_true hav] at ha
    exact ha
  · intro hv
    exact ⟨v, hv, by simp⟩

/-! ### The ifindex scan as a filter over the cache contents -/

theorem scan_chain_eq_filter (chain : List RouteInfo) (ifindex : Int) :
    scan_chain chain ifindex = chain.filter (fun r => decide (r.ifindex = ifindex)) := by
  induction chain with
  | nil => rfl
  | cons r rest ih =>
    by_cases h : r.ifindex = ifindex
    · simp [scan_chain, h, ih]
    · simp [scan_chain, h, ih]

theorem find_by_ifindex_eq_filter (ht : HashTable) (ifindex : Int) :
    hash_table_find_by_ifindex ht ifindex
      = (cacheEntries ht).filter (fun r => decide (r.ifindex = ifindex)) := by
  induction ht with
  | nil => rfl
  | cons bucket rest ih =>
    simp [hash_table_find_by_ifindex, cacheEntries, List.filter_append,
      scan_chain_eq_filter, ih]

theorem ifindex_of_mem_find {ht : HashTable} {i : Int} {r : RouteInfo}
    (h : r ∈ hash_table_find_by_ifindex ht i) : r.ifindex = i := by
  rw [find_by_ifindex_eq_filter] at h
  simpa using (List.mem_filter.mp h).2

/-! ### Bucket index bound -/

theorem hash_function_lt (destination : List Nat) (ifindex : Int) (size : Nat)
    (h : 0 < size) : hash_function destination ifindex size < size :=
  lt_of_le_of_lt (Nat.mod_le _ _) (Nat.mod_lt _ h)

/-! ### The remove chain walk -/

theorem remove_from_chain_of_none (chain : List RouteInfo) (d : List Nat) (i : Int)
    (h : chain.find? (keyMatches d i) = none) :
    remove_from_chain chain d i = chain := by
  induction chain with
  | nil => rfl
  | cons r rest ih =>
    by_cases hk : r.destination = d ∧ r.ifindex = i
    · rw [List.find?_cons_of_pos _ (by simpa [keyMatches] using hk)] at h
      cases h
    · rw [List.find?_cons_of_neg _ (by simpa [keyMatches] using hk)] at h
      simp only [remove_from_chain, if_neg hk]
      rw [ih h]

theorem remove_from_chain_of_some (chain : List RouteInfo) (d : List Nat) (i : Int)
    (m : RouteInfo) (h : chain.find? (keyMatches d i) = some m) (p : RouteInfo → Bool) :
    (remove_from_chain chain d i).countP p + (if p m then 1 else 0) = chain.countP p := by
  induction chain with
  | nil => cases h
  | cons r rest ih =>
    by_cases hk : r.destination = d ∧ r.ifindex = i
    · rw [List.find?_cons_of_pos _ (by simpa [keyMatches] using hk)] at h
      cases h
      simp only [remove_from_chain, if_pos hk, List.countP_cons]
    · rw [List.find?_cons_of_neg _ (by simpa [keyMatches] using hk)] at h
      have := ih h
      simp only [remove_from_chain, if_neg hk, List.countP_cons]
      omega

theorem mem_remove_from_chain {chain : List RouteInfo} {d : List Nat} {i : Int}
    {r : RouteInfo} (h : r ∈ remove_from_chain chain d i) : r ∈ chain := by
  induction chain with
  | nil => cases h
  | cons s rest ih =>
    by_cases hk : s.destination = d ∧ s.ifindex = i
    · rw [remove_from_chain, if_pos hk] at h
      exact List.mem_cons_of_mem s h
    · rw [remove_from_chain, if_neg hk] at h
      rcases List.mem_cons.mp h with h1 | h2
      · exact h1 ▸ List.mem_cons_self s rest
      · exact List.mem_cons_of_mem s (ih h2)

/-! ### Bucket access versus cache contents -/

theorem mem_entries_of_mem_getD {ht : HashTable} {i : Nat} {r : RouteInfo}
    (h : r ∈ ht.getD i []) : r ∈ cacheEntries ht := by
  by_cases hi : i < ht.length
  · rw [List.getD_eq_getElem ht [] hi] at h
    exact List.mem_flatten.mpr ⟨ht[i], List.getElem_mem hi, h⟩
  · rw [List.getD_eq_default ht [] (Nat.le_of_not_lt hi)] at h
    cases h

/-! ### Sizes -/

theorem length_insert (ht : HashTable) (r : RouteInfo) :
    (hash_table_insert ht r).length = ht.length :=
  List.length_set ht _ _

theorem length_remove (ht : HashTable) (d : List Nat) (i : Int) :
    (hash_table_remove ht d i).length = ht.length :=
  List.length_set ht _ _

theorem length_runOps (ops : List CacheOp) :
    ∀ ht : HashTable, (runOps ht ops).length = ht.length := by
  induction ops with
  | nil => intro ht; rfl
  | cons op rest ih =>
    intro ht
    cases op with
    | ins r => rw [runOps, ih, length_insert]
    | rem d i => rw [runOps, ih, length_remove]

/-! ### Effect of insert and remove on entry multiplicities -/

theorem hash_table_insert_def (ht : HashTable) (r : RouteInfo) :
    hash_table_insert ht r
      = ht.set (hash_function r.destination r.ifindex ht.length)
          (r :: ht.getD (hash_function r.destination r.ifindex ht.length) []) := rfl

theorem hash_table_remove_def (ht : HashTable) (d : List Nat) (i : Int) :
    hash_table_remove ht d i
      = ht.set (hash_function d i ht.length)
          (remove_from_chain (ht.getD (hash_function d i ht.length) []) d i) := rfl

theorem countP_entries_insert (p : RouteInfo → Bool) (ht : HashTable) (r : RouteInfo)
    (h : 0 < ht.length) :
    (cacheEntries (hash_table_insert ht r)).countP p
      = (cacheEntries ht).countP p + (if p r then 1 else 0) := by
  have hidx : hash_function r.destination r.ifindex ht.length < ht.length :=
    hash_function_lt _ _ _ h
  have h2 := countP_flatten_set p ht (hash_function r.destination r.ifindex ht.length)
    (r :: ht.getD (hash_function r.destination r.ifindex ht.length) []) hidx
  rw [List.countP_cons] at h2
  simp only [cacheEntries, hash_table_insert_def]
  omega

theorem remove_eq_of_not_found (ht : HashTable) (d : List Nat) (i : Int)
    (h : (ht.getD (hash_function d i ht.length) []).find? (keyMatches d i) = none) :
    hash_table_remove ht d i = ht := by
  rw [hash_table_remove_def, remove_from_chain_of_none _ _ _ h]
  exact set_getD_self ht _ []

theorem countP_entries_remove_found (p : RouteInfo → Bool) (ht : HashTable) (d : List Nat)
    (i : Int) (m : RouteInfo) (h : 0 < ht.length)
    (hf : (ht.getD (hash_function d i ht.length) []).find? (keyMatches d i) = some m) :
    (cacheEntries (hash_table_remove ht d i)).countP p + (if p m then 1 else 0)
      = (cacheEntries ht).countP p := by
  have hidx : hash_function d i ht.length < ht.length := hash_function_lt _ _ _ h
  have h2 := countP_flatten_set p ht (hash_function d i ht.length)
    (remove_from_chain (ht.getD (hash_function d i ht.length) []) d i) hidx
  have h3 := remove_from_chain_of_some _ _ _ _ hf p
  simp only [cacheEntries, hash_table_remove_def]
  omega

/-! ### The bucket-placement invariant -/

theorem bucketsConsistent_init (n : Nat) : BucketsConsistent (hash_table_init n) := by
  intro i hi r hr
  rw [List.getD_eq_getElem _ [] (by simpa [hash_table_init] using hi)] at hr
  simp [hash_table_init] at hr

theorem bucketsConsistent_insert (ht : HashTable) (r : RouteInfo)
    (hc : BucketsConsistent ht) : BucketsConsistent (hash_table_insert ht r) := by
  intro j hj s hs
  rw [length_insert] at hj
  rw [length_insert]
  rw [hash_table_insert_def] at hs
  by_cases hij : hash_function r.destination r.ifindex ht.length = j
  · subst hij
    rw [getD_set_self ht _ _ [] hj] at hs
    rcases List.mem_cons.mp hs with h1 | h2
    · subst h1; rfl
    · exact hc _ hj s h2
  · rw [getD_set_ne ht _ j _ [] hij] at hs
    exact hc j hj s hs

theorem bucketsConsistent_remove (ht : HashTable) (d : List Nat) (i : Int)
    (hc : BucketsConsistent ht) : BucketsConsistent (hash_table_remove ht d i) := by
  intro j hj s hs
  rw [length_remove] at hj
  rw [length_remove]
  rw [hash_table_remove_def] at hs
  by_cases hij : hash_function d i ht.length = j
  · subst hij
    rw [getD_set_self ht _ _ [] hj] at hs
    exact hc _ hj s (mem_remove_from_chain hs)
  · rw [getD_set_ne ht _ j _ [] hij] at hs
    exact hc j hj s hs

theorem bucketsConsistent_runOps (ops : List CacheOp) :
    ∀ ht : HashTable, BucketsConsistent ht → BucketsConsistent (runOps ht ops) := by
  induction ops with
  | nil => intro ht hc; exact hc
  | cons op rest ih =>
    intro ht hc
    cases op with
    | ins r => exact ih _ (bucketsConsistent_insert ht r hc)
    | rem d i => exact ih _ (bucketsConsistent_remove ht d i hc)

/-! ### Key multiplicity under the operations -/

theorem keyCount_insert (ht : HashTable) (r : RouteInfo) (d : List Nat) (i : Int)
    (h : 0 < ht.length) :
    keyCount d i (hash_table_insert ht r)
      = keyCount d i ht + (if keyMatches d i r then 1 else 0) :=
  countP_entries_insert (keyMatches d i) ht r h

theorem length_pos_of_keyCount_pos {ht : HashTable} {d : List Nat} {i : Int}
    (h : 0 < keyCount d i ht) : 0 < ht.length := by
  by_contra hlen
  have h0 : ht = [] := List.length_eq_zero.mp (Nat.eq_zero_of_not_pos hlen)
  subst h0
  simp [keyCount, cacheEntries] at h

theorem exists_key_in_bucket {ht : HashTable} {d : List Nat} {i : Int}
    (hc : BucketsConsistent ht) (hp : 0 < keyCount d i ht) :
    ∃ m, (ht.getD (hash_function d i ht.length) []).find? (keyMatches d i) = some m := by
  obtain ⟨r, hr, hkr⟩ := List.countP_pos_iff.mp hp
  obtain ⟨bucket, hbucket, hrb⟩ := List.mem_flatten.mp hr
  obtain ⟨⟨j, hj⟩, hget⟩ := List.mem_iff_get.mp hbucket
  have hjb : ht.getD j [] = bucket := by
    rw [List.getD_eq_getElem ht [] hj]
    exact hget
  have hhash : hash_function r.destination r.ifindex ht.length = j :=
    hc j hj r (by rw [hjb]; exact hrb)
  obtain ⟨hrd, hri⟩ := of_decide_eq_true hkr
  have hkey : hash_function d i ht.length = j := by
    rw [← hrd, ← hri]
    exact hhash
  have hmem : r ∈ ht.getD (hash_function d i ht.length) [] := by
    rw [hkey, hjb]
    exact hrb
  have hsome : ((ht.getD (hash_function d i ht.length) []).find? (keyMatches d i)).isSome :=
    List.find?_isSome.mpr ⟨r, hmem, hkr⟩
  exact Option.isSome_iff_exists.mp hsome

theorem keyCount_remove_pos (ht : HashTable) (d : List Nat) (i : Int)
    (hc : BucketsConsistent ht) (hp : 0 < keyCount d i ht) :
    keyCount d i (hash_table_remove ht d i) = keyCount d i ht - 1 := by
  have hlen : 0 < ht.length := length_pos_of_keyCount_pos hp
  obtain ⟨m, hm⟩ := exists_key_in_bucket hc hp
  have hkm : keyMatches d i m = true :=
    List.find?_some hm
  have h2 := countP_entries_remove_found (keyMatches d i) ht d i m hlen hm
  rw [if_pos hkm] at h2
  unfold keyCount
  omega

theorem keyCount_remove_ne (ht : HashTable) (d : List Nat) (i : Int) (d' : List Nat) (i' : Int)
    (hlen : 0 < ht.length) (hne : ¬(d' = d ∧ i' = i)) :
    keyCount d i (hash_table_remove ht d' i') = keyCount d i ht := by
  cases hf : (ht.getD (hash_function d' i' ht.length) []).find? (keyMatches d' i') with
  | none => rw [remove_eq_of_not_found ht d' i' hf]
  | some m =>
    have hkm : keyMatches d' i' m = true := List.find?_some hf
    obtain ⟨hmd, hmi⟩ := of_decide_eq_true hkm
    have hnk : keyMatches d i m = false := by
      rw [keyMatches, decide_eq_false_iff_not]
      rintro ⟨h1, h2⟩
      exact hne ⟨by rw [← hmd, h1], by rw [← hmi, h2]⟩
    have h2 := countP_entries_remove_found (keyMatches d i) ht d' i' m hlen hf
    rw [if_neg (by simp [hnk])] at h2
    unfold keyCount
    omega

/-! ### Key multiplicity along an operation sequence -/

theorem keyCount_runOps (d : List Nat) (i : Int) (ops : List CacheOp) :
    ∀ (ht : HashTable) (c : Nat), 0 < ht.length → BucketsConsistent ht →
      keyCount d i ht = c → removesCovered d i c ops = true →
      keyCount d i (runOps ht ops) + remCount d i ops = c + insCount d i ops := by
  induction ops with
  | nil =>
    intro ht c hlen hc hkc hcov
    simp only [runOps, remCount, insCount, List.countP_nil]
    omega
  | cons op rest ih =>
    intro ht c hlen hc hkc hcov
    cases op with
    | ins r =>
      rw [removesCovered] at hcov
      have hlen' : 0 < (hash_table_insert ht r).length := by rw [length_insert]; exact hlen
      have hc' := bucketsConsistent_insert ht r hc
      have hkc' : keyCount d i (hash_table_insert ht r)
          = c + (if keyMatches d i r then 1 else 0) := by
        rw [keyCount_insert ht r d i hlen, hkc]
      by_cases hk : keyMatches d i r = true
      · rw [if_pos hk] at hkc'
        rw [if_pos hk] at hcov
        have h5 := ih (hash_table_insert ht r) (c + 1) hlen' hc' hkc' hcov
        simp [insCount, remCount] at h5
        simp [runOps, insCount, remCount, List.countP_cons, hk]
        omega
      · rw [if_neg hk] at hkc'
        rw [if_neg hk] at hcov
        rw [Nat.add_zero] at hkc'
        have h5 := ih (hash_table_insert ht r) c hlen' hc' hkc' hcov
        simp [insCount, remCount] at h5
        simp [runOps, insCount, remCount, List.countP_cons, hk]
        omega
    | rem d' i' =>
      rw [removesCovered] at hcov
      have hlen' : 0 < (hash_table_remove ht d' i').length := by
        rw [length_remove]; exact hlen
      have hc' := bucketsConsistent_remove ht d' i' hc
      by_cases hk : d' = d ∧ i' = i
      · obtain ⟨hd, hi⟩ := hk
        subst hd
        subst hi
        rw [if_pos ⟨rfl, rfl⟩, Bool.and_eq_true, decide_eq_true_iff] at hcov
        obtain ⟨hc0, hcov'⟩ := hcov
        have hkpos : 0 < keyCount d' i' ht := by omega
        have hkc' : keyCount d' i' (hash_table_remove ht d' i') = c - 1 := by
          rw [keyCount_remove_pos ht d' i' hc hkpos, hkc]
        have h5 := ih (hash_table_remove ht d' i') (c - 1) hlen' hc' hkc' hcov'
        simp [insCount, remCount] at h5
        simp [runOps, insCount, remCount, List.countP_cons]
        omega
      · rw [if_neg hk] at hcov
        have hkc' : keyCount d i (hash_table_remove ht d' i') = c := by
          rw [keyCount_remove_ne ht d i d' i' hlen hk, hkc]
        have h5 := ih (hash_table_remove ht d' i') c hlen' hc' hkc' hcov
        simp [insCount, remCount] at h5
        simp [runOps, insCount, remCount, List.countP_cons, hk]
        omega

theorem keyCount_init (d : List Nat) (i : Int) (n : Nat) :
    keyCount d i (hash_table_init n) = 0 := by
  unfold keyCount cacheEntries hash_table_init
  induction n with
  | zero => rfl
  | succ m ih =>
    simp only [List.replicate_succ, List.flatten_cons, List.countP_append, ih,
      List.countP_nil]

/-! ### Invalidation report lines -/

theorem print_invalidated_route_injective {x v : RouteInfo}
    (h : print_invalidated_route x = print_invalidated_route v) : x = v := by
  cases x
  cases v
  simp only [print_invalidated_route, Line.routeInvalidated.injEq] at h
  obtain ⟨h1, h2, h3, h4⟩ := h
  subst h1
  subst h2
  subst h3
  subst h4
  rfl

theorem occCount_cons_ne {α : Type} [DecidableEq α] {a v : α} (l : List α) (h : a ≠ v) :
    occCount v (a :: l) = occCount v l := by
  unfold occCount
  rw [List.countP_cons]
  simp [h]

theorem occCount_map_print (v : RouteInfo) (l : List RouteInfo) :
    occCount (print_invalidated_route v) (l.map print_invalidated_route) = occCount v l := by
  unfold occCount
  induction l with
  | nil => rfl
  | cons x rest ih =>
    simp only [List.map_cons, List.countP_cons, ih]
    have heq : (decide (print_invalidated_route x = print_invalidated_route v))
        = (decide (x = v)) := by
      by_cases hxv : x = v
      · subst hxv; simp
      · have hne : print_invalidated_route x ≠ print_invalidated_route v :=
          fun he => hxv (print_invalidated_route_injective he)
        simp [hxv, hne]
    rw [heq]

/-! ### The claims -/

/-- **C10**: for every destination string, every interface index (negative
sentinels included) and every positive bucket count, `hash_function` — a
wrap-around unsigned computation — returns an index strictly below the bucket
count, so `hash_table_insert`, `hash_table_remove` and
`hash_table_find_by_ifindex` only touch buckets inside the allocated array. -/
theorem claim_C10 (destination : List Nat) (ifindex : Int) (size : Nat) (h : 0 < size) :
    hash_function destination ifindex size < size :=
  hash_function_lt destination ifindex size h

/-- Witness for C10: the bucket index of destination "10.0.0.0" with the
sentinel interface index -1 in the 128-bucket table of src/rmon.c. -/
theorem claim_C10_witness : hash_function [49, 48, 46, 48, 46, 48, 46, 48] (-1) 128 < 128 :=
  claim_C10 [49, 48, 46, 48, 46, 48, 46, 48] (-1) 128 (by decide)

/-- **C1**: the invalidation scan run by `link_callback` on a link-deleted
event visits every cached entry whose `ifindex` equals the removed index
exactly once (each entry is reported with exactly its multiplicity in the
cache) and never visits an entry with a different `ifindex`; the emitted
report contains exactly one `print_invalidated_route` record per matching
entry. -/
theorem claim_C1 (ht : HashTable) (I : Int) (v : RouteInfo) :
    occCount v (hash_table_find_by_ifindex ht I)
        = (if v.ifindex = I then occCount v (cacheEntries ht) else 0)
      ∧ occCount (print_invalidated_route v) (link_callback ht true I).2
        = (if v.ifindex = I then occCount v (cacheEntries ht) else 0) := by
  have hfind : occCount v (hash_table_find_by_ifindex ht I)
      = (if v.ifindex = I then occCount v (cacheEntries ht) else 0) := by
    rw [find_by_ifindex_eq_filter, occCount_filter]
    by_cases h : v.ifindex = I
    · simp [h]
    · simp [h]
  refine ⟨hfind, ?_⟩
  have hstep : (link_callback ht true I).2
      = Line.linkDeleted I :: (hash_table_find_by_ifindex ht I).map print_invalidated_route :=
    rfl
  rw [hstep, occCount_cons_ne _ (by simp [print_invalidated_route]),
    occCount_map_print, hfind]

/-- **C2**: `on_link_removed` (`link_callback` on a delete) and
`on_address_removed` (`addr_callback`) leave the cache word-for-word
unchanged, so an ifindex scan performed after the invalidation observes
exactly the same entries as one performed before: invalidation is
read-only. -/
theorem claim_C2 (ht : HashTable) (i j : Int) (a : List Nat) :
    (link_callback ht true i).1 = ht
      ∧ (addr_callback ht a i).1 = ht
      ∧ hash_table_find_by_ifindex (link_callback ht true i).1 j
          = hash_table_find_by_ifindex ht j
      ∧ hash_table_find_by_ifindex (addr_callback ht a i).1 j
          = hash_table_find_by_ifindex ht j :=
  ⟨rfl, rfl, rfl, rfl⟩

/-- **C5**: removing a key for which no entry (string-equal destination and
equal ifindex) is present anywhere in the cache leaves the table — every
bucket, the other buckets included — exactly as it was; `hash_table_remove`
returns void and reports nothing, so no error is raised. -/
theorem claim_C5 (ht : HashTable) (d : List Nat) (i : Int)
    (h : ∀ r ∈ cacheEntries ht, ¬(r.destination = d ∧ r.ifindex = i)) :
    hash_table_remove ht d i = ht := by
  apply remove_eq_of_not_found
  rw [List.find?_eq_none]
  intro x hx
  have hmem := mem_entries_of_mem_getD hx
  simpa [keyMatches] using h x hmem

/-- Witness for C5: removing the never-inserted key ("a", 0) from a table
holding one route keyed ("b", 1) returns the table unchanged. -/
theorem claim_C5_witness :
    hash_table_remove (hash_table_insert (hash_table_init 4) ⟨[98], 1, [], 0⟩) [97] 0
      = hash_table_insert (hash_table_init 4) ⟨[98], 1, [], 0⟩ :=
  claim_C5 _ [97] 0 (by decide)

instance decidableBucketsConsistent (ht : HashTable) : Decidable (BucketsConsistent ht) := by
  unfold BucketsConsistent
  infer_instance

/-- **C3** as frozen is false on the code: in the sequence
[remove ("a", 0); insert ("a", 0)] the key ("a", 0) is removed exactly as
many times as it is inserted (once each), yet the remove precedes the
insert, misses, and the inserted entry survives, so the subsequent ifindex
scan reports the key's destination. -/
theorem claim_C3_counterexample :
    insCount [97] 0 [CacheOp.rem [97] 0, CacheOp.ins ⟨[97], 0, [], 0⟩]
        = remCount [97] 0 [CacheOp.rem [97] 0, CacheOp.ins ⟨[97], 0, [], 0⟩]
      ∧ (⟨[97], 0, [], 0⟩ : RouteInfo) ∈ hash_table_find_by_ifindex
          (runOps (hash_table_init 4) [CacheOp.rem [97] 0, CacheOp.ins ⟨[97], 0, [], 0⟩]) 0
      ∧ (⟨[97], 0, [], 0⟩ : RouteInfo).destination = [97] := by
  decide

/-- **C3** (amended): for any sequence of inserts and removes applied to the
empty cache in which the key K = (destination, ifindex) is removed exactly
as many times as it is inserted AND every remove of K happens while an entry
with key K is live (no remove of K misses), a subsequent
`hash_table_find_by_ifindex` over K's interface index reports no entry
whose destination equals K's destination. -/
theorem claim_C3_amended (n : Nat) (d : List Nat) (i : Int) (ops : List CacheOp)
    (hn : 0 < n) (hcov : removesCovered d i 0 ops = true)
    (hbal : insCount d i ops = remCount d i ops) :
    ∀ r ∈ hash_table_find_by_ifindex (runOps (hash_table_init n) ops) i,
      r.destination ≠ d := by
  have hlen : 0 < (hash_table_init n).length := by
    simp only [hash_table_init, List.length_replicate]
    exact hn
  have hmain := keyCount_runOps d i ops (hash_table_init n) 0 hlen
    (bucketsConsistent_init n) (keyCount_init d i n) hcov
  have hzero : keyCount d i (runOps (hash_table_init n) ops) = 0 := by omega
  intro r hr hrd
  have hif : r.ifindex = i := ifindex_of_mem_find hr
  rw [find_by_ifindex_eq_filter] at hr
  have hrent : r ∈ cacheEntries (runOps (hash_table_init n) ops) :=
    (List.mem_filter.mp hr).1
  have hpos : 0 < (cacheEntries (runOps (hash_table_init n) ops)).countP (keyMatches d i) :=
    List.countP_pos_iff.mpr ⟨r, hrent, by simp [keyMatches, hrd, hif]⟩
  unfold keyCount at hzero
  omega

/-- Witness for the amended C3: insert ("b",0), insert ("a",0), remove
("a",0) — the remove is covered and the counts balance — and the surviving
interface-0 entry reported by the scan indeed does not carry destination
"a". -/
theorem claim_C3_witness : (⟨[98], 0, [], 0⟩ : RouteInfo).destination ≠ [97] :=
  claim_C3_amended 4 [97] 0
    [CacheOp.ins ⟨[98], 0, [], 0⟩, CacheOp.ins ⟨[97], 0, [], 0⟩, CacheOp.rem [97] 0]
    (by decide) (by decide) (by decide) ⟨[98], 0, [], 0⟩ (by decide)

/-- **C4**: inserting two entries with the same key (equal destination and
ifindex) but different metrics keeps both as independent chain nodes — after
the two inserts every value's cache multiplicity is what it was plus one for
each of the two inserted entries, so the second insert replaced nothing —
and the subsequent ifindex scan visits both. -/
theorem claim_C4 (ht : HashTable) (e₁ e₂ : RouteInfo) (hlen : 0 < ht.length)
    (_hd : e₁.destination = e₂.destination) (hi : e₁.ifindex = e₂.ifindex)
    (hm : e₁.metric ≠ e₂.metric) :
    occCount e₁ (cacheEntries (hash_table_insert (hash_table_insert ht e₁) e₂))
        = occCount e₁ (cacheEntries ht) + 1
      ∧ occCount e₂ (cacheEntries (hash_table_insert (hash_table_insert ht e₁) e₂))
          = occCount e₂ (cacheEntries ht) + 1
      ∧ (∀ v : RouteInfo, v ≠ e₁ → v ≠ e₂ →
          occCount v (cacheEntries (hash_table_insert (hash_table_insert ht e₁) e₂))
            = occCount v (cacheEntries ht))
      ∧ e₁ ∈ hash_table_find_by_ifindex (hash_table_insert (hash_table_insert ht e₁) e₂)
          e₁.ifindex
      ∧ e₂ ∈ hash_table_find_by_ifindex (hash_table_insert (hash_table_insert ht e₁) e₂)
          e₁.ifindex := by
  have hlen1 : 0 < (hash_table_insert ht e₁).length := by rw [length_insert]; exact hlen
  have hne : e₁ ≠ e₂ := fun h => hm (by rw [h])
  have ha : occCount e₁ (cacheEntries (hash_table_insert (hash_table_insert ht e₁) e₂))
      = occCount e₁ (cacheEntries ht) + 1 := by
    have h1 := countP_entries_insert (fun x => decide (x = e₁)) ht e₁ hlen
    have h2 := countP_entries_insert (fun x => decide (x = e₁)) (hash_table_insert ht e₁)
      e₂ hlen1
    simp [Ne.symm hne] at h1 h2
    unfold occCount
    omega
  have hb : occCount e₂ (cacheEntries (hash_table_insert (hash_table_insert ht e₁) e₂))
      = occCount e₂ (cacheEntries ht) + 1 := by
    have h1 := countP_entries_insert (fun x => decide (x = e₂)) ht e₁ hlen
    have h2 := countP_entries_insert (fun x => decide (x = e₂)) (hash_table_insert ht e₁)
      e₂ hlen1
    simp [hne] at h1 h2
    unfold occCount
    omega
  have hrest : ∀ v : RouteInfo, v ≠ e₁ → v ≠ e₂ →
      occCount v (cacheEntries (hash_table_insert (hash_table_insert ht e₁) e₂))
        = occCount v (cacheEntries ht) := by
    intro v hv1 hv2
    have h1 := countP_entries_insert (fun x => decide (x = v)) ht e₁ hlen
    have h2 := countP_entries_insert (fun x => decide (x = v)) (hash_table_insert ht e₁)
      e₂ hlen1
    simp [Ne.symm hv1, Ne.symm hv2] at h1 h2
    unfold occCount
    omega
  have hmem : ∀ u : RouteInfo, u.ifindex = e₁.ifindex →
      0 < occCount u (cacheEntries (hash_table_insert (hash_table_insert ht e₁) e₂)) →
      u ∈ hash_table_find_by_ifindex (hash_table_insert (hash_table_insert ht e₁) e₂)
        e₁.ifindex := by
    intro u hu hpos
    rw [find_by_ifindex_eq_filter]
    exact List.mem_filter.mpr ⟨(occCount_pos_iff_mem u _).mp hpos, by simp [hu]⟩
  exact ⟨ha, hb, hrest, hmem e₁ rfl (by omega), hmem e₂ hi.symm (by omega)⟩

/-- Witness for C4: two routes with key ("a", 1) and metrics 5 and 7 in a
2-bucket table; the multiplicity of the first rises by exactly one and the
second is visited by the scan. -/
theorem claim_C4_witness :
    occCount (⟨[97], 1, [], 5⟩ : RouteInfo)
        (cacheEntries (hash_table_insert
          (hash_table_insert (hash_table_init 2) ⟨[97], 1, [], 5⟩) ⟨[97], 1, [], 7⟩))
        = occCount (⟨[97], 1, [], 5⟩ : RouteInfo) (cacheEntries (hash_table_init 2)) + 1
      ∧ (⟨[97], 1, [], 7⟩ : RouteInfo) ∈ hash_table_find_by_ifindex
          (hash_table_insert (hash_table_insert (hash_table_init 2) ⟨[97], 1, [], 5⟩)
            ⟨[97], 1, [], 7⟩) 1 := by
  obtain ⟨ha, hb, hrest, hm1, hm2⟩ := claim_C4 (hash_table_init 2) ⟨[97], 1, [], 5⟩
    ⟨[97], 1, [], 7⟩ (by decide) rfl rfl (by decide)
  exact ⟨ha, hm2⟩

/-- **C6**: in a cache whose entries sit in the buckets their keys hash to
(true of every table the program builds) and which holds at least one entry
with the key, `hash_table_remove` finds a first key-matching node in the
target bucket's chain and deletes exactly that node: its multiplicity drops
by one, every other value's multiplicity — other duplicates of the same key
included — is unchanged, and every other entry is still reported by the
ifindex scans exactly as before. -/
theorem claim_C6 (ht : HashTable) (d : List Nat) (i : Int)
    (hc : BucketsConsistent ht) (hp : 0 < keyCount d i ht) :
    (((ht.getD (hash_function d i ht.length) []).find? (keyMatches d i)).isSome = true)
      ∧ ∀ m, (ht.getD (hash_function d i ht.length) []).find? (keyMatches d i) = some m →
          keyMatches d i m = true
          ∧ (∀ v : RouteInfo,
              occCount v (cacheEntries (hash_table_remove ht d i))
                  + (if v = m then 1 else 0)
                = occCount v (cacheEntries ht))
          ∧ (∀ (j : Int) (v : RouteInfo), v ≠ m →
              occCount v (hash_table_find_by_ifindex (hash_table_remove ht d i) j)
                = occCount v (hash_table_find_by_ifindex ht j)) := by
  have hlen : 0 < ht.length := length_pos_of_keyCount_pos hp
  obtain ⟨m₀, hm₀⟩ := exists_key_in_bucket hc hp
  constructor
  · rw [hm₀]
    rfl
  intro m hm
  have hmm : keyMatches d i m = true := List.find?_some hm
  have hcnt : ∀ v : RouteInfo,
      occCount v (cacheEntries (hash_table_remove ht d i)) + (if v = m then 1 else 0)
        = occCount v (cacheEntries ht) := by
    intro v
    have h2 := countP_entries_remove_found (fun x => decide (x = v)) ht d i m hlen hm
    by_cases hv : v = m
    · subst hv
      rw [if_pos rfl]
      rw [if_pos (by simp)] at h2
      exact h2
    · have hmv : ¬ m = v := fun h => hv h.symm
      rw [if_neg hv]
      rw [if_neg (by simp [hmv])] at h2
      unfold occCount
      omega
  refine ⟨hmm, hcnt, ?_⟩
  intro j v hvm
  have hv := hcnt v
  rw [if_neg hvm] at hv
  rw [find_by_ifindex_eq_filter, find_by_ifindex_eq_filter, occCount_filter, occCount_filter]
  by_cases hj : v.ifindex = j
  · rw [if_pos (by simp [hj]), if_pos (by simp [hj])]
    omega
  · rw [if_neg (by simp [hj]), if_neg (by simp [hj])]

/-- Witness for C6: a 4-bucket cache holding two routes with key ("a", 0)
and metrics 1 and 2 (the metric-2 node is the chain head); removing ("a", 0)
deletes the chain head, and the metric-1 duplicate is still reported by the
interface-0 scan with unchanged multiplicity. -/
theorem claim_C6_witness :
    keyMatches [97] 0 ⟨[97], 0, [], 2⟩ = true
      ∧ occCount (⟨[97], 0, [], 1⟩ : RouteInfo)
          (hash_table_find_by_ifindex
            (hash_table_remove
              (hash_table_insert (hash_table_insert (hash_table_init 4) ⟨[97], 0, [], 1⟩)
                ⟨[97], 0, [], 2⟩) [97] 0) 0)
        = occCount (⟨[97], 0, [], 1⟩ : RouteInfo)
          (hash_table_find_by_ifindex
            (hash_table_insert (hash_table_insert (hash_table_init 4) ⟨[97], 0, [], 1⟩)
              ⟨[97], 0, [], 2⟩) 0) := by
  obtain ⟨hsome, hall⟩ := claim_C6
    (hash_table_insert (hash_table_insert (hash_table_init 4) ⟨[97], 0, [], 1⟩)
      ⟨[97], 0, [], 2⟩) [97] 0 (by decide) (by decide)
  obtain ⟨hmm, hcnt, hfind⟩ := hall ⟨[97], 0, [], 2⟩ (by decide)
  exact ⟨hmm, hfind 0 ⟨[97], 0, [], 1⟩ (by decide)⟩

/-- **C7** as frozen is false on the code: `hash_table_find_by_ifindex`
compares `ifindex` with plain integer equality and special-cases nothing, so
an invalidation whose interface-index argument is itself -1 DOES report
entries carrying the -1 sentinel. Concrete input: a cache holding one route
with ifindex -1, and a link-deleted event with index -1. -/
theorem claim_C7_counterexample :
    Line.routeInvalidated [97] (-1) [] 0
      ∈ (link_callback (hash_table_insert (hash_table_init 4) ⟨[97], -1, [], 0⟩)
          true (-1)).2 := by
  decide

/-- **C7** (amended): an entry whose `ifindex` is the sentinel -1 is never
reported by a link-removed or address-removed invalidation whose
interface-index argument differs from -1; only a (never kernel-delivered)
call with argument -1 itself can report such entries. -/
theorem claim_C7_amended (ht : HashTable) (i : Int) (a d g : List Nat) (met : Int)
    (hi : i ≠ -1) :
    Line.routeInvalidated d (-1) g met ∉ (link_callback ht true i).2
      ∧ Line.routeInvalidated d (-1) g met ∉ (addr_callback ht a i).2 := by
  constructor
  · intro hmem
    have hstep : (link_callback ht true i).2
        = Line.linkDeleted i
            :: (hash_table_find_by_ifindex ht i).map print_invalidated_route := rfl
    rw [hstep] at hmem
    rcases List.mem_cons.mp hmem with h1 | h2
    · exact Line.noConfusion h1
    · obtain ⟨r, hr, hpr⟩ := List.mem_map.mp h2
      have hif : r.ifindex = i := ifindex_of_mem_find hr
      unfold print_invalidated_route at hpr
      simp only [Line.routeInvalidated.injEq] at hpr
      obtain ⟨-, hneg, -, -⟩ := hpr
      apply hi
      rw [← hif]
      exact hneg
  · intro hmem
    have hstep : (addr_callback ht a i).2
        = Line.addrDeleted a i
            :: (hash_table_find_by_ifindex ht i).map print_invalidated_route := rfl
    rw [hstep] at hmem
    rcases List.mem_cons.mp hmem with h1 | h2
    · exact Line.noConfusion h1
    · obtain ⟨r, hr, hpr⟩ := List.mem_map.mp h2
      have hif : r.ifindex = i := ifindex_of_mem_find hr
      unfold print_invalidated_route at hpr
      simp only [Line.routeInvalidated.injEq] at hpr
      obtain ⟨-, hneg, -, -⟩ := hpr
      apply hi
      rw [← hif]
      exact hneg

/-- Witness for the amended C7: a cache holding one sentinel route; neither
`on_link_removed(3)` nor `on_address_removed(3, "c")` reports it. -/
theorem claim_C7_witness :
    Line.routeInvalidated [97] (-1) [] 0
        ∉ (link_callback (hash_table_insert (hash_table_init 4) ⟨[97], -1, [], 0⟩) true 3).2
      ∧ Line.routeInvalidated [97] (-1) [] 0
        ∉ (addr_callback (hash_table_insert (hash_table_init 4) ⟨[97], -1, [], 0⟩)
            [99] 3).2 :=
  claim_C7_amended (hash_table_insert (hash_table_init 4) ⟨[97], -1, [], 0⟩) 3 [99] [97] [] 0
    (by decide)

/-- **C8** as frozen is false on the code: the removed address is printed
once per event, in the address-deleted line, and NOT alongside each
dependent route — the per-route records `print_invalidated_route` emits are
bitwise identical whatever the removed address was. Concrete input: one
cached route on interface 3; removing address "a" and removing address "b"
yield the same non-empty per-route record list. -/
theorem claim_C8_counterexample :
    ([97] : List Nat) ≠ [98]
      ∧ invalRecords (addr_callback (hash_table_insert (hash_table_init 4) ⟨[99], 3, [], 0⟩)
            [97] 3).2
          = invalRecords (addr_callback (hash_table_insert (hash_table_init 4) ⟨[99], 3, [], 0⟩)
            [98] 3).2
      ∧ invalRecords (addr_callback (hash_table_insert (hash_table_init 4) ⟨[99], 3, [], 0⟩)
            [97] 3).2 ≠ [] := by
  decide

/-- **C8** (amended): `on_address_removed` selects affected routes by
interface index alone — every cached route owned by the interface is
reported with exactly its cache multiplicity, whatever its gateway or
destination — and the removed address is reported once per event, in the
address-deleted line that precedes the per-route records, not inside each
record. -/
theorem claim_C8_amended (ht : HashTable) (a : List Nat) (i : Int) (v : RouteInfo) :
    (addr_callback ht a i).2.head? = some (Line.addrDeleted a i)
      ∧ occCount (print_invalidated_route v) (addr_callback ht a i).2
        = (if v.ifindex = i then occCount v (cacheEntries ht) else 0) := by
  constructor
  · rfl
  · have hstep : (addr_callback ht a i).2
        = Line.addrDeleted a i
            :: (hash_table_find_by_ifindex ht i).map print_invalidated_route := rfl
    rw [hstep, occCount_cons_ne _ (by simp [print_invalidated_route]),
      occCount_map_print, find_by_ifindex_eq_filter, occCount_filter]
    by_cases h : v.ifindex = i
    · simp [h]
    · simp [h]

/-- **C9** as frozen is false on the code: `print_invalidated_route` emits
one and the same record for both triggers, so the emitted record does not
distinguish link-removed from address-removed. Concrete input: the same
one-route cache invalidated once by `on_link_removed(3)` and once by
`on_address_removed(3, "a")` produces identical non-empty per-route record
lists. -/
theorem claim_C9_counterexample :
    invalRecords (link_callback (hash_table_insert (hash_table_init 4) ⟨[99], 3, [], 0⟩)
          true 3).2
        = invalRecords (addr_callback (hash_table_insert (hash_table_init 4) ⟨[99], 3, [], 0⟩)
          [97] 3).2
      ∧ invalRecords (link_callback (hash_table_insert (hash_table_init 4) ⟨[99], 3, [], 0⟩)
          true 3).2 ≠ [] := by
  decide

/-- **C9** (amended): every per-route invalidation record carries the
destination, owning interface index, gateway and metric of the affected
route; the trigger is identifiable not from the record itself but from the
line that opens the report — the link-deleted line for `on_link_removed`,
the address-deleted line for `on_address_removed`. -/
theorem claim_C9_amended (ht : HashTable) (i : Int) (a : List Nat) :
    (link_callback ht true i).2.head? = some (Line.linkDeleted i)
      ∧ (addr_callback ht a i).2.head? = some (Line.addrDeleted a i)
      ∧ (∀ l ∈ (link_callback ht true i).2, isInvalidationRecord l = true →
          ∃ r ∈ hash_table_find_by_ifindex ht i,
            l = Line.routeInvalidated r.destination r.ifindex r.gateway r.metric)
      ∧ (∀ l ∈ (addr_callback ht a i).2, isInvalidationRecord l = true →
          ∃ r ∈ hash_table_find_by_ifindex ht i,
            l = Line.routeInvalidated r.destination r.ifindex r.gateway r.metric) := by
  refine ⟨rfl, rfl, ?_, ?_⟩
  · intro l hl hrec
    have hstep : (link_callback ht true i).2
        = Line.linkDeleted i
            :: (hash_table_find_by_ifindex ht i).map print_invalidated_route := rfl
    rw [hstep] at hl
    rcases List.mem_cons.mp hl with h1 | h2
    · subst h1
      simp [isInvalidationRecord] at hrec
    · obtain ⟨r, hr, hpr⟩ := List.mem_map.mp h2
      exact ⟨r, hr, hpr.symm⟩
  · intro l hl hrec
    have hstep : (addr_callback ht a i).2
        = Line.addrDeleted a i
            :: (hash_table_find_by_ifindex ht i).map print_invalidated_route := rfl
    rw [hstep] at hl
    rcases List.mem_cons.mp hl with h1 | h2
    · subst h1
      simp [isInvalidationRecord] at hrec
    · obtain ⟨r, hr, hpr⟩ := List.mem_map.mp h2
      exact ⟨r, hr, hpr.symm⟩

/-- Witness for the amended C9: on a concrete one-route cache the link
report opens with the link-deleted line. -/
theorem claim_C9_witness :
    (link_callback (hash_table_insert (hash_table_init 4) ⟨[99], 3, [], 0⟩) true 3).2.head?
      = some (Line.linkDeleted 3) :=
  (claim_C9_amended (hash_table_insert (hash_table_init 4) ⟨[99], 3, [], 0⟩) 3 [97]).1
